import Mathlib

/-!
Verification of the matrix parameter fan-out and counting engine of
`pkg/apis/pipeline/v1/matrix_types.go` (Tekton pipeline, package `v1`).

The Go source is embedded shallowly: slices become `List`, the
`map[string]string` `Combination` becomes an association list
`List (String × String)` whose write operation overwrites an existing key,
`map[string][]string` becomes `List (String × List String)`, pointer
receivers (`*Matrix`) become `Option Matrix` where a nil receiver is
reachable, loops become `foldl` or structural recursion, and `break` in the
Include-counting loop becomes the early-return branch of a recursion.

Go `int` arithmetic: lengths of materialised slices (the `FanOut` output,
the Include entries and their params) are bounded by what fits in memory,
so `Nat` is exact for them. The params-product count of
`countGeneratedCombinationsFromParams`, however, is computed WITHOUT
materialising the combinations, so its 64-bit two's-complement wraparound
is reachable (64 params of 4 values wrap the product to 0). That count is
therefore modelled twice: `countGeneratedCombinationsFromParamsInt64` and
`CountCombinationsInt64` are bit-exact models of the wrapping Go `int64`
arithmetic (`wrapInt64` after every operation), while the `Nat`-valued
`countGeneratedCombinationsFromParams`/`CountCombinations` compute the
mathematical count, adequate exactly for the statements that do not depend
on the numeric value surviving an overflow (they agree below `2 ^ 63`, see
`countGeneratedInt64_eq_prod`).
-/

namespace PipelineV1

/-- Modelled from the spec: the parameter value tag (`ParamType` lives in
`param_types.go`, outside the provided sources): one of string, array,
object; "Object: unused here". -/
inductive ParamType where
  | string
  | array
  | object
deriving DecidableEq

/-- Modelled from the spec: `ParamValue` (from `param_types.go`, outside the
provided sources) is a tagged value with an ordered sequence of string
elements (`ArrayVal`), a scalar string (`StringVal`); the tag governs which
field is meaningful. -/
structure ParamValue where
  type : ParamType
  StringVal : String
  ArrayVal : List String
deriving DecidableEq

/-- Modelled from the spec: `Param` (from `param_types.go`, outside the
provided sources) is `{Name: string, Value: ParamValue}`. -/
structure Param where
  Name : String
  Value : ParamValue
deriving DecidableEq

/-- `Params` is an ordered sequence of `Param` (declaration order kept). -/
abbrev Params := List Param

/-- `IncludeParams` (matrix_types.go): a named combination passed into the
Matrix; its `Params` take string-typed values only. -/
structure IncludeParams where
  Name : String
  Params : Params
deriving DecidableEq

/-- `IncludeParamsList` is a list of `IncludeParams`. -/
abbrev IncludeParamsList := List IncludeParams

/-- `Matrix` (matrix_types.go): array-typed `Params` to fan out, plus the
optional `Include` list. A Go nil slice and an empty slice are both `[]`. -/
structure Matrix where
  Params : Params
  Include : IncludeParamsList
deriving DecidableEq

/-- `Combination` is Go's `map[string]string`, as an association list; the
maps the source builds have pairwise distinct keys. -/
abbrev Combination := List (String × String)

/-- `Combinations` is a `Combination` list. -/
abbrev Combinations := List Combination

/-- Go map read `c[key]` (zero value `""` when the key is absent). -/
def mapRead (c : Combination) (key : String) : String :=
  ((c.find? (fun e => e.1 == key)).map Prod.snd).getD ""

/-- Go map write `c[key] = value`: overwrite the entry when the key is
present, append it otherwise. -/
def mapWrite (c : Combination) (key value : String) : Combination :=
  if c.any (fun e => e.1 == key) then
    c.map (fun e => if e.1 == key then (key, value) else e)
  else
    c ++ [(key, value)]

/-- The lexicographic order `≤` on `String`, decided through the character
list so that terms evaluate by kernel reduction (`String.ltb` does not). -/
def decNameLE : DecidableRel (fun a b : String => a ≤ b) := fun a b =>
  decidable_of_iff (a.toList ≤ b.toList) String.le_iff_toList_le.symm

/-- `sortCombination` (matrix_types.go): collect the keys, sort them (Go uses
`sort.Slice` with `order[i] <= order[j]`; any sort producing an `≤`-sorted
permutation of the distinct keys yields the same list, modelled with
insertion sort), and rebuild the map in that key order. Returns the sorted
key order and the rebuilt combination. -/
def sortCombination (c : Combination) : List String × Combination :=
  let order := @List.insertionSort String (· ≤ ·) decNameLE (c.map Prod.fst)
  (order, order.map (fun key => (key, mapRead c key)))

/-- `initializeCombinations` (matrix_types.go): one singleton combination per
array element of the first parameter, in declared order. -/
def initializeCombinations (param : Param) : Combinations :=
  param.Value.ArrayVal.foldl
    (fun combinations value => combinations ++ [[(param.Name, value)]]) []

/-- `distribute` (matrix_types.go): outer loop over the new parameter's array
values, inner loop over the existing combinations; each existing combination
is copied, extended with the new name→value pair, rebuilt in sorted key
order, and appended. -/
def distribute (cs : Combinations) (param : Param) : Combinations :=
  param.Value.ArrayVal.foldl
    (fun expandedCombinations value =>
      cs.foldl
        (fun acc combination =>
          acc ++ [(sortCombination (mapWrite combination param.Name value)).2])
        expandedCombinations)
    []

/-- `fanOutMatrixParams` (matrix_types.go): initialize on an empty working
list, distribute otherwise. -/
def fanOutMatrixParams (cs : Combinations) (param : Param) : Combinations :=
  if cs.length = 0 then initializeCombinations param
  else distribute cs param

/-- `toParams` (matrix_types.go): each combination becomes a flat `Params`
list, one `Param` of string type per key, keys in sorted order. -/
def toParams (cs : Combinations) : List Params :=
  cs.map (fun combination =>
    (sortCombination combination).1.map (fun key =>
      { Name := key
        Value := { type := ParamType.string, StringVal := mapRead combination key
                   ArrayVal := [] } }))

/-- `FanOut` (matrix_types.go): thread the working combination list through
`fanOutMatrixParams` over `Matrix.Params` in declaration order, then convert
to parameter lists. (`FanOut` reads only `m.Params`.) -/
def Matrix.FanOut (m : Matrix) : List (List Param) :=
  toParams (m.Params.foldl fanOutMatrixParams [])

/-- `HasParams` (matrix_types.go): `m != nil && m.Params != nil &&
len(m.Params) > 0`; a nil receiver is `none`. -/
def HasParams : Option Matrix → Bool
  | none => false
  | some m => decide (0 < m.Params.length)

/-- `HasInclude` (matrix_types.go): `m != nil && m.Include != nil &&
len(m.Include) > 0`; a nil receiver is `none`. -/
def HasInclude : Option Matrix → Bool
  | none => false
  | some m => decide (0 < m.Include.length)

/-- `countGeneratedCombinationsFromParams` (matrix_types.go): 0 unless
`HasParams`; otherwise the product of the array lengths, accumulated left to
right from 1. The `none` case is the `m != nil` conjunct of `HasParams`.
This `Nat` version computes the mathematical product; Go's `count` is a
64-bit `int` whose multiplications wrap, modelled bit-exactly by
`countGeneratedCombinationsFromParamsInt64` below (the two agree while the
product stays below `2 ^ 63`). -/
def countGeneratedCombinationsFromParams (mp : Option Matrix) : Nat :=
  match mp with
  | none => 0
  | some m =>
    if ¬ HasParams (some m) then 0
    else m.Params.foldl (fun count param => count * param.Value.ArrayVal.length) 1

/-- The Go map write underlying `extractParamMapArrVals`:
`paramsMap[p.Name] = p.Value.ArrayVal` overwrites an existing entry or
appends a fresh one. -/
def writeArrVals (acc : List (String × List String)) (p : Param) :
    List (String × List String) :=
  if acc.any (fun e => e.1 == p.Name) then
    acc.map (fun e => if e.1 == p.Name then (p.Name, p.Value.ArrayVal) else e)
  else
    acc ++ [(p.Name, p.Value.ArrayVal)]

/-- Modelled from the spec: `Params.extractParamMapArrVals` is declared
outside the provided sources; the spec describes it as building "a mapping
from each matrix Param name to its set of array values". The Go map is an
association list; writing an already-present name overwrites its entry. -/
def extractParamMapArrVals (ps : Params) : List (String × List String) :=
  ps.foldl writeArrVals []

/-- Go map lookup `val, exist := matrixParamMap[param.Name]` as an `Option`:
the first entry carrying the key (the maps built here never repeat a key). -/
def lookupArrVals : List (String × List String) → String → Option (List String)
  | [], _ => none
  | e :: rest, key => if e.1 == key then some e.2 else lookupArrVals rest key

/-- The inner loop of `countNewCombinationsFromInclude` over one Include
entry's `Params`: a param whose name is absent from the map is skipped; a
param whose name is present with the string value absent from the array
values adds 1 and the scan continues; a present value stops the scan of this
entry (`break`), adding nothing further. -/
def includeEntryCount (matrixParamMap : List (String × List String)) :
    Params → Nat
  | [] => 0
  | param :: rest =>
    match lookupArrVals matrixParamMap param.Name with
    | some val =>
      if val.contains param.Value.StringVal then 0
      else 1 + includeEntryCount matrixParamMap rest
    | none => includeEntryCount matrixParamMap rest

/-- `countNewCombinationsFromInclude` (matrix_types.go): 0 unless
`HasInclude`; `len(m.Include)` when `HasInclude` but not `HasParams`;
otherwise the sum over Include entries of the inner-loop count, accumulated
left to right (the Go `count` variable is only read and incremented, so
hoisting each entry's inner loop into `includeEntryCount` is exact). -/
def countNewCombinationsFromInclude (mp : Option Matrix) : Nat :=
  match mp with
  | none => 0
  | some m =>
    if ¬ HasInclude (some m) then 0
    else if ¬ HasParams (some m) then m.Include.length
    else
      let matrixParamMap := extractParamMapArrVals m.Params
      m.Include.foldl
        (fun count inc => count + includeEntryCount matrixParamMap inc.Params) 0

/-- `CountCombinations` (matrix_types.go): params product plus the
Include-derived count (`Nat` version; see `CountCombinationsInt64` for the
wrapping Go `int64` arithmetic). -/
def CountCombinations (mp : Option Matrix) : Nat :=
  countGeneratedCombinationsFromParams mp + countNewCombinationsFromInclude mp

/-- Two's-complement wraparound into the 64-bit signed range
`[-2 ^ 63, 2 ^ 63)`, the effect of every Go `int` operation on a 64-bit
platform. -/
def wrapInt64 (n : Int) : Int :=
  (n + 2 ^ 63) % 2 ^ 64 - 2 ^ 63

/-- `countGeneratedCombinationsFromParams` with Go's actual `int`
arithmetic: `count *= len(param.Value.ArrayVal)` wraps two's-complement at
every step. Unlike the slice lengths themselves, this product is computed
without materialising the combinations, so its overflow is reachable. -/
def countGeneratedCombinationsFromParamsInt64 (mp : Option Matrix) : Int :=
  match mp with
  | none => 0
  | some m =>
    if ¬ HasParams (some m) then 0
    else m.Params.foldl
      (fun count param => wrapInt64 (count * param.Value.ArrayVal.length)) 1

/-- `CountCombinations` with Go's `int` arithmetic: the wrapping params
product plus the Include-derived count, their sum wrapped as Go's `+`
does. (The Include count itself increments once per materialised Include
param, so `Nat` is exact for it.) -/
def CountCombinationsInt64 (mp : Option Matrix) : Int :=
  wrapInt64 (countGeneratedCombinationsFromParamsInt64 mp
    + (countNewCombinationsFromInclude mp : Int))

/-- The structured out-of-bounds error built by
`apis.ErrOutOfBoundsValue(value, 0, max, "matrix")`: the offending value, the
allowed range `[lower, upper]` and the field path. -/
structure FieldError where
  value : Nat
  lower : Nat
  upper : Nat
  path : String
deriving DecidableEq

/-- `validateCombinationsCount` (matrix_types.go): compute
`CountCombinations`, compare against the configured maximum (the externally
supplied `DefaultMaxMatrixCombinationsCount`, here a parameter), and return
an out-of-bounds error exactly when the count exceeds it. -/
def validateCombinationsCount (mp : Option Matrix)
    (maxMatrixCombinationsCount : Nat) : Option FieldError :=
  let matrixCombinationsCount := CountCombinations mp
  if maxMatrixCombinationsCount < matrixCombinationsCount then
    some { value := matrixCombinationsCount, lower := 0
           upper := maxMatrixCombinationsCount, path := "matrix" }
  else
    none

/-- Shorthand for an array-typed `ParamValue`. -/
def arrV (vs : List String) : ParamValue :=
  { type := ParamType.array, StringVal := "", ArrayVal := vs }

/-- Shorthand for a string-typed `ParamValue`. -/
def strV (v : String) : ParamValue :=
  { type := ParamType.string, StringVal := v, ArrayVal := [] }

/-!
Concrete matrices used in the theorems below.
-/

/-- The two-parameter matrix of the ordering example:
`Params = [{OS:[linux,mac]},{VER:[1,2]}]`, no Include. -/
def mOSVER : Matrix :=
  { Params := [⟨"OS", arrV ["linux", "mac"]⟩, ⟨"VER", arrV ["1", "2"]⟩]
    Include := [] }

/-- A matrix whose first parameter has an empty array and whose second has
two values. -/
def mAempty : Matrix :=
  { Params := [⟨"A", arrV []⟩, ⟨"B", arrV ["x", "y"]⟩], Include := [] }

/-- A matrix with params `A:[a1], B:[b1]` and one Include entry whose first
param (`A:x`) misses the matrix values and whose second (`B:b1`) hits them. -/
def mAB : Matrix :=
  { Params := [⟨"A", arrV ["a1"]⟩, ⟨"B", arrV ["b1"]⟩]
    Include := [⟨"inc1", [⟨"A", strV "x"⟩, ⟨"B", strV "b1"⟩]⟩] }

/-- Two params of lengths 4 and 5: 20 combinations. -/
def m45 : Matrix :=
  { Params := [⟨"p1", arrV ["1", "2", "3", "4"]⟩
               , ⟨"p2", arrV ["a", "b", "c", "d", "e"]⟩]
    Include := [] }

/-- Nil `Params` and a single Include entry `{extra: {OS: windows}}`. -/
def mIncOnly : Matrix :=
  { Params := []
    Include := [⟨"extra", [⟨"OS", strV "windows"⟩]⟩] }

/-- 64 parameters of 4 values each: only 256 strings materialised, yet the
mathematical combination count is `4 ^ 64 = 2 ^ 128`, far beyond `int64`. -/
def mWide : Matrix :=
  { Params := (List.range 64).map
      (fun i => ⟨"p" ++ toString i, arrV ["a", "b", "c", "d"]⟩)
    Include := [] }

/-!
General helper lemmas about the loop shapes used above.
-/

/-- A loop that appends one image per element is `map`. -/
theorem foldl_append_singleton {α β : Type} (f : α → β) :
    ∀ (l : List α) (acc : List β),
      l.foldl (fun a c => a ++ [f c]) acc = acc ++ l.map f
  | [], acc => by simp
  | x :: xs, acc => by
    simp [foldl_append_singleton f xs (acc ++ [f x])]

/-- A doubly nested append loop concatenates one block per outer element. -/
theorem foldl_blocks {α β γ : Type} (g : α → γ → β) (cs : List γ) :
    ∀ (vals : List α) (acc : List β),
      vals.foldl (fun exp value => cs.foldl (fun a c => a ++ [g value c]) exp) acc
        = acc ++ (vals.map (fun v => cs.map (g v))).flatten
  | [], acc => by simp
  | v :: vs, acc => by
    simp [foldl_append_singleton (g v) cs acc, foldl_blocks g cs vs,
      List.append_assoc]

/-- A multiplying accumulator loop is `a * prod`. -/
theorem foldl_mul_eq_prod {α : Type} (f : α → Nat) :
    ∀ (l : List α) (a : Nat),
      l.foldl (fun c x => c * f x) a = a * (l.map f).prod
  | [], a => by simp
  | x :: xs, a => by
    simp [foldl_mul_eq_prod f xs (a * f x), Nat.mul_assoc]

/-- An adding accumulator loop is `a + sum`. -/
theorem foldl_add_eq_sum {α : Type} (f : α → Nat) :
    ∀ (l : List α) (a : Nat),
      l.foldl (fun c x => c + f x) a = a + (l.map f).sum
  | [], a => by simp
  | x :: xs, a => by
    simp [foldl_add_eq_sum f xs (a + f x), Nat.add_assoc]

/-- A constant-image map sums to `length * c`. -/
theorem sum_map_const_nat {α : Type} (c : Nat) :
    ∀ l : List α, (l.map (fun _ => c)).sum = l.length * c
  | [] => by simp
  | x :: xs => by
    simp [sum_map_const_nat c xs, Nat.succ_mul, Nat.add_comm]

/-!
Structure of the fan-out working list.
-/

/-- `initializeCombinations` is one singleton combination per array value. -/
theorem initializeCombinations_eq_map (param : Param) :
    initializeCombinations param
      = param.Value.ArrayVal.map (fun value => [(param.Name, value)]) := by
  simpa [initializeCombinations] using
    foldl_append_singleton (fun value => [(param.Name, value)])
      param.Value.ArrayVal []

/-- `distribute` is the concatenation, over the new parameter's values in
declared order (outer blocks), of the existing combinations in order (inner),
each extended with the new pair and rebuilt sorted. -/
theorem distribute_eq_flatten (cs : Combinations) (param : Param) :
    distribute cs param
      = (param.Value.ArrayVal.map (fun value =>
          cs.map (fun combination =>
            (sortCombination (mapWrite combination param.Name value)).2))).flatten := by
  simpa [distribute] using
    foldl_blocks
      (fun value combination =>
        (sortCombination (mapWrite combination param.Name value)).2)
      cs param.Value.ArrayVal []

/-- `distribute` produces `k * n` combinations from `n` existing ones and a
parameter with `k` values. -/
theorem length_distribute (cs : Combinations) (param : Param) :
    (distribute cs param).length = param.Value.ArrayVal.length * cs.length := by
  rw [distribute_eq_flatten, List.length_flatten, List.map_map]
  have hcomp :
      (List.length ∘ fun value =>
        cs.map (fun combination =>
          (sortCombination (mapWrite combination param.Name value)).2))
      = fun _ => cs.length := by
    funext value
    simp
  rw [hcomp, sum_map_const_nat]

/-- `toParams` keeps the number of combinations. -/
theorem length_toParams (cs : Combinations) :
    (toParams cs).length = cs.length := by
  simp [toParams]

/-- Threading a non-empty working list through non-empty parameters
multiplies its length by every array length. -/
theorem foldl_fanOutMatrixParams_length :
    ∀ (ps : List Param) (cs : Combinations), cs ≠ [] →
      (∀ p ∈ ps, p.Value.ArrayVal ≠ []) →
      (ps.foldl fanOutMatrixParams cs).length
        = cs.length * (ps.map (fun p => p.Value.ArrayVal.length)).prod
  | [], cs, _, _ => by simp
  | p :: ps, cs, hcs, hall => by
    have hlen : cs.length ≠ 0 := fun h => hcs (List.length_eq_zero.mp h)
    have hstep : fanOutMatrixParams cs p = distribute cs p := by
      simp [fanOutMatrixParams, hlen]
    have hp : p.Value.ArrayVal ≠ [] := hall p (List.mem_cons_self p ps)
    have hpk : p.Value.ArrayVal.length ≠ 0 :=
      fun h => hp (List.length_eq_zero.mp h)
    have hne : distribute cs p ≠ [] := by
      intro h
      have := length_distribute cs p
      rw [h] at this
      exact (Nat.mul_ne_zero hpk hlen) this.symm
    have ih := foldl_fanOutMatrixParams_length ps (distribute cs p) hne
      (fun q hq => hall q (List.mem_cons_of_mem p hq))
    simp only [List.foldl_cons, hstep, ih, length_distribute, List.map_cons,
      List.prod_cons]
    ring

/-!
Counting and map-lookup helper lemmas.
-/

/-- A matrix with a non-empty parameter list has params. -/
theorem hasParams_of_ne_nil {m : Matrix} (h : m.Params ≠ []) :
    HasParams (some m) = true := by
  simp only [HasParams, decide_eq_true_eq]
  exact List.length_pos.mpr h

/-- The params contribution is the product of the array lengths. -/
theorem countGenerated_eq_prod (m : Matrix) (hne : m.Params ≠ []) :
    countGeneratedCombinationsFromParams (some m)
      = (m.Params.map (fun p => p.Value.ArrayVal.length)).prod := by
  simp only [countGeneratedCombinationsFromParams, hasParams_of_ne_nil hne,
    not_true, if_false,
    foldl_mul_eq_prod (fun p : Param => p.Value.ArrayVal.length) m.Params 1,
    Nat.one_mul]

/-- `wrapInt64` is the identity on `[0, 2 ^ 63)`. -/
theorem wrapInt64_eq_of_range (n : Int) (h0 : 0 ≤ n) (h1 : n < 2 ^ 63) :
    wrapInt64 n = n := by
  have h64 : ((2 : Int) ^ 64) = 18446744073709551616 := by norm_num
  have h63 : ((2 : Int) ^ 63) = 9223372036854775808 := by norm_num
  rw [h63] at h1
  unfold wrapInt64
  rw [h64, h63]
  omega

/-- While the running product stays below `2 ^ 63`, the wrapping Go fold
computes the mathematical product. -/
theorem foldl_wrapInt64_mul_eq_prod (f : Param → Nat) :
    ∀ (ps : List Param) (a : Nat),
      (∀ p ∈ ps, f p ≠ 0) →
      a * (ps.map f).prod < 2 ^ 63 →
      ps.foldl (fun count p => wrapInt64 (count * (f p : Int))) (a : Int)
        = ((a * (ps.map f).prod : Nat) : Int)
  | [], a, _, _ => by simp
  | p :: ps, a, hall, hbound => by
    have hprodpos : 0 < (ps.map f).prod :=
      List.prod_pos (by
        intro x hx
        obtain ⟨q, hq, rfl⟩ := List.mem_map.mp hx
        exact Nat.pos_of_ne_zero (hall q (List.mem_cons_of_mem p hq)))
    have hstep_le : a * f p ≤ a * (List.map f (p :: ps)).prod := by
      rw [List.map_cons, List.prod_cons, ← Nat.mul_assoc]
      exact Nat.le_mul_of_pos_right _ hprodpos
    have hstep : a * f p < 2 ^ 63 := Nat.lt_of_le_of_lt hstep_le hbound
    have hwrap : wrapInt64 ((a : Int) * (f p : Int))
        = ((a * f p : Nat) : Int) := by
      rw [show ((a : Int) * (f p : Int)) = ((a * f p : Nat) : Int) by
        push_cast
        ring]
      exact wrapInt64_eq_of_range _ (Int.natCast_nonneg _) (by exact_mod_cast hstep)
    have hbound' : a * f p * (List.map f ps).prod < 2 ^ 63 := by
      rw [Nat.mul_assoc, ← List.prod_cons, ← List.map_cons]
      exact hbound
    rw [List.foldl_cons, hwrap,
      foldl_wrapInt64_mul_eq_prod f ps (a * f p)
        (fun q hq => hall q (List.mem_cons_of_mem p hq)) hbound']
    rw [List.map_cons, List.prod_cons, Nat.mul_assoc]

/-- Below `2 ^ 63` the bit-exact Go `int64` product equals the
mathematical one. -/
theorem countGeneratedInt64_eq_prod (m : Matrix) (hne : m.Params ≠ [])
    (hpos : ∀ p ∈ m.Params, p.Value.ArrayVal ≠ [])
    (hlt : (m.Params.map (fun p => p.Value.ArrayVal.length)).prod < 2 ^ 63) :
    countGeneratedCombinationsFromParamsInt64 (some m)
      = (((m.Params.map (fun p => p.Value.ArrayVal.length)).prod : Nat) : Int)
    := by
  have h := foldl_wrapInt64_mul_eq_prod (fun p => p.Value.ArrayVal.length)
    m.Params 1
    (fun q hq hz => hpos q hq (List.length_eq_zero.mp hz))
    (by simpa using hlt)
  simp only [Nat.one_mul] at h
  have hunf : countGeneratedCombinationsFromParamsInt64 (some m)
      = m.Params.foldl (fun count param =>
          wrapInt64 (count * param.Value.ArrayVal.length)) 1 := by
    simp [countGeneratedCombinationsFromParamsInt64, hasParams_of_ne_nil hne]
  rw [hunf]
  exact h

/-- Overwriting the entry of another key does not change a read. -/
theorem lookupArrVals_replace_ne (k key : String) (v : List String)
    (hne : key ≠ k) :
    ∀ acc : List (String × List String),
      lookupArrVals (acc.map (fun e => if e.1 == k then (k, v) else e)) key
        = lookupArrVals acc key
  | [] => rfl
  | e :: rest => by
    have ih := lookupArrVals_replace_ne k key v hne rest
    by_cases he : (e.1 == k) = true
    · have h1 : e.1 = k := by simpa using he
      have hkey : (k == key) = false := by
        simpa using (Ne.symm hne)
      simp only [List.map_cons, if_pos he, lookupArrVals, ih, hkey, h1]
      simp
      intro hq
      exact absurd hq.symm hne
    · simp only [List.map_cons, if_neg he, lookupArrVals, ih]

/-- Overwriting a present key makes a read of it return the new value. -/
theorem lookupArrVals_replace_self (k : String) (v : List String) :
    ∀ acc : List (String × List String),
      acc.any (fun e => e.1 == k) = true →
      lookupArrVals (acc.map (fun e => if e.1 == k then (k, v) else e)) k
        = some v
  | [], h => by simp at h
  | e :: rest, h => by
    by_cases he : (e.1 == k) = true
    · simp only [List.map_cons, if_pos he, lookupArrVals]
      simp
    · have he' : (e.1 == k) = false := by simpa using he
      have hrest : rest.any (fun e => e.1 == k) = true := by
        simpa [List.any_cons, he'] using h
      simp only [List.map_cons, if_neg he, lookupArrVals, he',
        lookupArrVals_replace_self k v rest hrest]
      simp [he']

/-- Appending a fresh entry behaves as an overwrite for reads. -/
theorem lookupArrVals_append_absent (p : Param) (key : String) :
    ∀ acc : List (String × List String),
      acc.any (fun e => e.1 == p.Name) = false →
      lookupArrVals (acc ++ [(p.Name, p.Value.ArrayVal)]) key
        = if key = p.Name then some p.Value.ArrayVal
          else lookupArrVals acc key
  | [], _ => by
    by_cases h : key = p.Name
    · simp [lookupArrVals, h]
    · have hne : (p.Name == key) = false := by simpa using (Ne.symm h)
      simp [lookupArrVals, h, hne]
  | e :: rest, h => by
    have he : (e.1 == p.Name) = false := by
      by_contra hc
      simp only [Bool.not_eq_false] at hc
      simp [List.any_cons, hc] at h
    have hrest : rest.any (fun e => e.1 == p.Name) = false := by
      simpa [List.any_cons, he] using h
    simp only [List.cons_append, lookupArrVals, List.append_eq]
    rw [lookupArrVals_append_absent p key rest hrest]
    by_cases hk : (e.1 == key) = true
    · have h1 : e.1 = key := by simpa using hk
      have hknp : key ≠ p.Name := fun hq => by
        rw [← h1] at hq
        rw [hq] at he
        simp at he
      simp [hk, hknp]
    · rw [if_neg hk, if_neg hk]

/-- A Go map write then read: the written key returns the written value,
any other key is unchanged. -/
theorem lookupArrVals_writeArrVals (acc : List (String × List String))
    (p : Param) (key : String) :
    lookupArrVals (writeArrVals acc p) key
      = if key = p.Name then some p.Value.ArrayVal
        else lookupArrVals acc key := by
  unfold writeArrVals
  by_cases hany : acc.any (fun e => e.1 == p.Name) = true
  · rw [if_pos hany]
    by_cases hk : key = p.Name
    · subst hk
      rw [if_pos rfl,
        lookupArrVals_replace_self p.Name p.Value.ArrayVal acc hany]
    · rw [if_neg hk, lookupArrVals_replace_ne p.Name key p.Value.ArrayVal hk acc]
  · rw [if_neg hany,
      lookupArrVals_append_absent p key acc (Bool.eq_false_iff.mpr hany)]

/-- A name not written by any parameter reads as it did before the loop. -/
theorem lookupArrVals_foldl_not_mem (key : String) :
    ∀ (ps : Params) (acc : List (String × List String)),
      key ∉ ps.map Param.Name →
      lookupArrVals (ps.foldl writeArrVals acc) key = lookupArrVals acc key
  | [], _, _ => rfl
  | p :: ps, acc, h => by
    have h1 : key ≠ p.Name := by
      intro hk
      exact h (by simp [hk])
    have h2 : key ∉ ps.map Param.Name := by
      intro hk
      exact h (by simp [hk])
    rw [List.foldl_cons, lookupArrVals_foldl_not_mem key ps _ h2,
      lookupArrVals_writeArrVals, if_neg h1]

/-- A name outside `Matrix.Params` is absent from the extracted map. -/
theorem lookupArrVals_extract_none (ps : Params) (key : String)
    (h : key ∉ ps.map Param.Name) :
    lookupArrVals (extractParamMapArrVals ps) key = none := by
  rw [extractParamMapArrVals, lookupArrVals_foldl_not_mem key ps [] h]
  rfl

/-- An Include entry none of whose param names is in the map counts 0. -/
theorem includeEntryCount_eq_zero (mp : List (String × List String)) :
    ∀ entry : Params, (∀ p ∈ entry, lookupArrVals mp p.Name = none) →
      includeEntryCount mp entry = 0
  | [], _ => rfl
  | p :: rest, h => by
    rw [includeEntryCount, h p (List.mem_cons_self p rest),
      includeEntryCount_eq_zero mp rest
        (fun q hq => h q (List.mem_cons_of_mem p hq))]

/-- Scanning past a present value stops the entry, keeping what the prefix
contributed. -/
theorem includeEntryCount_append_break (mp : List (String × List String))
    (param : Param) (vals : List String)
    (hlook : lookupArrVals mp param.Name = some vals)
    (hmem : vals.contains param.Value.StringVal = true) :
    ∀ pre rest : Params,
      includeEntryCount mp (pre ++ param :: rest) = includeEntryCount mp pre
  | [], rest => by
    simp only [List.nil_append, includeEntryCount, hlook, hmem, if_true]
  | q :: pre, rest => by
    simp only [List.cons_append, includeEntryCount]
    cases hq : lookupArrVals mp q.Name with
    | none =>
      exact includeEntryCount_append_break mp param vals hlook hmem pre rest
    | some v =>
      simp only [List.append_eq]
      by_cases hv : v.contains q.Value.StringVal = true
      · rw [if_pos hv, if_pos hv]
      · rw [if_neg hv, if_neg hv,
          includeEntryCount_append_break mp param vals hlook hmem pre rest]

/-- The Include contribution, for a matrix with params, is the sum of the
per-entry inner-loop counts. -/
theorem countInclude_eq_sum (ps : Params) (inc : IncludeParamsList)
    (hps : ps ≠ []) :
    countNewCombinationsFromInclude (some ⟨ps, inc⟩)
      = (inc.map (fun e =>
          includeEntryCount (extractParamMapArrVals ps) e.Params)).sum := by
  cases inc with
  | nil => rfl
  | cons e es =>
    have h1 : HasInclude (some ⟨ps, e :: es⟩) = true := by
      simp [HasInclude]
    have h2 : HasParams (some (⟨ps, e :: es⟩ : Matrix)) = true :=
      hasParams_of_ne_nil (m := ⟨ps, e :: es⟩) hps
    simp only [countNewCombinationsFromInclude, h1, h2, not_true, if_false,
      foldl_add_eq_sum
        (fun inc : IncludeParams =>
          includeEntryCount (extractParamMapArrVals ps) inc.Params)
        (e :: es) 0,
      Nat.zero_add]

/-- The key order produced by `sortCombination` is sorted by `≤`. -/
theorem sortCombination_order_sorted (c : Combination) :
    List.Pairwise (fun a b : String => a ≤ b) (sortCombination c).1 :=
  @List.sorted_insertionSort String (· ≤ ·) decNameLE _ _ (c.map Prod.fst)

/-- The key order depends only on the multiset of map entries, not on the
order in which they were inserted. -/
theorem sortCombination_order_perm {c c' : Combination} (h : c.Perm c') :
    (sortCombination c).1 = (sortCombination c').1 := by
  apply List.eq_of_perm_of_sorted (r := fun a b : String => a ≤ b)
  · exact (@List.perm_insertionSort String (· ≤ ·) decNameLE
        (c.map Prod.fst)).trans
      ((h.map Prod.fst).trans
        (@List.perm_insertionSort String (· ≤ ·) decNameLE
          (c'.map Prod.fst)).symm)
  · exact sortCombination_order_sorted c
  · exact sortCombination_order_sorted c'

/-!
The claims.
-/

/-- C1, counterexample: the matrix `[{A:[]},{B:[x,y]}]` has a zero-length
Array param, yet `FanOut` returns two combinations (not the empty sequence
the claim requires): after the empty param leaves the working list empty,
`fanOutMatrixParams` re-initializes it from the next parameter. -/
theorem fanOut_empty_array_not_absorbed :
    (∃ p ∈ mAempty.Params, p.Value.ArrayVal.length = 0)
      ∧ mAempty.FanOut.length = 2 := by
  decide

/-- C1, amended: a zero-length Array forces an empty `FanOut` only from the
last position: when the LAST Param of `Matrix.Params` has an Array value of
length 0, `FanOut` returns the empty sequence regardless of the other
Params' lengths (an earlier empty array is cancelled by re-initialization). -/
theorem fanOut_empty_last_param (m : Matrix) (front : List Param)
    (last : Param) (hsplit : m.Params = front ++ [last])
    (hlast : last.Value.ArrayVal = []) :
    m.FanOut = [] := by
  unfold Matrix.FanOut
  rw [hsplit, List.foldl_append]
  simp only [List.foldl_cons, List.foldl_nil]
  by_cases h : (front.foldl fanOutMatrixParams []).length = 0
  · simp [fanOutMatrixParams, h, initializeCombinations, hlast, toParams]
  · simp [fanOutMatrixParams, h, distribute, hlast, toParams]

/-- C1, witness: a concrete matrix whose last param has an empty array fans
out to the empty sequence. -/
theorem fanOut_empty_last_param_witness :
    Matrix.FanOut
        { Params := [⟨"B", arrV ["x", "y"]⟩, ⟨"A", arrV []⟩], Include := [] }
      = [] :=
  fanOut_empty_last_param
    { Params := [⟨"B", arrV ["x", "y"]⟩, ⟨"A", arrV []⟩], Include := [] }
    [⟨"B", arrV ["x", "y"]⟩] ⟨"A", arrV []⟩ rfl rfl

/-- C2, counterexample: with `Params = [{A:[]},{B:[x,y]}]` (lengths 0 and 2)
and no Include, `FanOut` has 2 elements while the length product and
`CountCombinations` are 0: the claimed equality fails when a length is 0. -/
theorem fanOut_length_product_cex :
    mAempty.FanOut.length = 2
      ∧ (mAempty.Params.map (fun p => p.Value.ArrayVal.length)).prod = 0
      ∧ CountCombinations (some mAempty) = 0 := by
  decide

set_option maxRecDepth 8192 in
/-- The int64 wrap of the count is reachable without materialising any
combination: 64 parameters of 4 values (256 strings) wrap the Go count to
0, while the mathematical product is `4 ^ 64 = 2 ^ 128`. -/
theorem countGeneratedInt64_wraps_to_zero :
    countGeneratedCombinationsFromParamsInt64 (some mWide) = 0
      ∧ (mWide.Params.map (fun p => p.Value.ArrayVal.length)).prod
          = 2 ^ 128 := by
  constructor
  · decide
  · decide

/-- C2, amended: for non-empty `Matrix.Params` whose arrays are all
non-empty and empty Include, the length of `FanOut` equals the product of
the array lengths; and whenever that product is below `2 ^ 63` — so the
64-bit `int` count in the Go source does not overflow — the count computed
with Go's wrapping arithmetic (`CountCombinationsInt64`), and with it
`CountCombinations`, equals that product as well. (From `2 ^ 63` up the Go
count wraps and the equality fails: see `countGeneratedInt64_wraps_to_zero`.) -/
theorem fanOut_length_eq_prod_of_pos (m : Matrix) (hne : m.Params ≠ [])
    (hpos : ∀ p ∈ m.Params, p.Value.ArrayVal ≠ []) (hinc : m.Include = []) :
    m.FanOut.length = (m.Params.map (fun p => p.Value.ArrayVal.length)).prod
      ∧ ((m.Params.map (fun p => p.Value.ArrayVal.length)).prod < 2 ^ 63 →
          CountCombinationsInt64 (some m)
              = (((m.Params.map
                    (fun p => p.Value.ArrayVal.length)).prod : Nat) : Int)
            ∧ CountCombinations (some m)
              = (m.Params.map (fun p => p.Value.ArrayVal.length)).prod) := by
  constructor
  · obtain ⟨p, ps, hps⟩ := List.exists_cons_of_ne_nil hne
    unfold Matrix.FanOut
    rw [length_toParams, hps, List.foldl_cons]
    have hinit : fanOutMatrixParams [] p = initializeCombinations p := by
      simp [fanOutMatrixParams]
    have hlen : (initializeCombinations p).length
        = p.Value.ArrayVal.length := by
      simp [initializeCombinations_eq_map]
    have hp : p.Value.ArrayVal ≠ [] := by
      apply hpos
      rw [hps]
      exact List.mem_cons_self p ps
    have hinitne : initializeCombinations p ≠ [] := by
      intro hz
      rw [hz] at hlen
      exact hp (List.length_eq_zero.mp hlen.symm)
    rw [hinit, foldl_fanOutMatrixParams_length ps (initializeCombinations p)
      hinitne
      (fun q hq => by
        apply hpos
        rw [hps]
        exact List.mem_cons_of_mem p hq)]
    rw [hlen, List.map_cons, List.prod_cons]
  · intro hlt
    have hci : countNewCombinationsFromInclude (some m) = 0 := by
      rcases m with ⟨ps, inc⟩
      simp only at hinc
      subst hinc
      rfl
    constructor
    · unfold CountCombinationsInt64
      rw [hci, countGeneratedInt64_eq_prod m hne hpos hlt, Nat.cast_zero,
        Int.add_zero]
      exact wrapInt64_eq_of_range _ (Int.natCast_nonneg _) (by exact_mod_cast hlt)
    · rw [CountCombinations, hci, countGenerated_eq_prod m hne, Nat.add_zero]

/-- C2, witness: the OS/VER matrix has `FanOut` length `2*2 = 4`, equal to
the product of lengths, to the int64-computed count (4 < 2^63, no wrap) and
to `CountCombinations`. -/
theorem fanOut_length_eq_prod_of_pos_witness :
    mOSVER.FanOut.length
        = (mOSVER.Params.map (fun p => p.Value.ArrayVal.length)).prod
      ∧ CountCombinationsInt64 (some mOSVER)
          = (((mOSVER.Params.map
                (fun p => p.Value.ArrayVal.length)).prod : Nat) : Int)
      ∧ CountCombinations (some mOSVER)
          = (mOSVER.Params.map (fun p => p.Value.ArrayVal.length)).prod :=
  ⟨(fanOut_length_eq_prod_of_pos mOSVER (by decide) (by decide) rfl).1,
   ((fanOut_length_eq_prod_of_pos mOSVER (by decide) (by decide) rfl).2
      (by decide)).1,
   ((fanOut_length_eq_prod_of_pos mOSVER (by decide) (by decide) rfl).2
      (by decide)).2⟩

/-- C3, counterexample: in `mAB` the single Include entry scans `A:x`
(name present, value absent: +1) and then `B:b1` (name present, value
present: break), so the entry contributes 1, not the 0 "in total" the claim
requires once a present value is met. -/
theorem include_entry_break_keeps_prefix_cex :
    lookupArrVals (extractParamMapArrVals mAB.Params) "B" = some ["b1"]
      ∧ (["b1"].contains "b1") = true
      ∧ countNewCombinationsFromInclude (some mAB) = 1 := by
  decide

/-- C3, amended: with params and Include non-empty, the Include count is the
sum over entries of the in-order scan; a scanned param whose name is mapped
and whose value is already present stops the entry's scan, KEEPING the
contributions of the params before it; a mapped name with an absent value
adds 1 and the scan continues. -/
theorem countNewCombinationsFromInclude_scan :
    (∀ m : Matrix, m.Params ≠ [] →
      countNewCombinationsFromInclude (some m)
        = (m.Include.map (fun e =>
            includeEntryCount (extractParamMapArrVals m.Params) e.Params)).sum)
    ∧ (∀ (mp : List (String × List String)) (pre : List Param) (param : Param)
        (rest : List Param) (vals : List String),
          lookupArrVals mp param.Name = some vals →
          vals.contains param.Value.StringVal = true →
          includeEntryCount mp (pre ++ param :: rest)
            = includeEntryCount mp pre)
    ∧ (∀ (mp : List (String × List String)) (param : Param)
        (rest : List Param) (vals : List String),
          lookupArrVals mp param.Name = some vals →
          vals.contains param.Value.StringVal = false →
          includeEntryCount mp (param :: rest)
            = 1 + includeEntryCount mp rest) := by
  refine ⟨?_, ?_, ?_⟩
  · intro m hps
    exact countInclude_eq_sum m.Params m.Include hps
  · intro mp pre param rest vals hlook hmem
    exact includeEntryCount_append_break mp param vals hlook hmem pre rest
  · intro mp param rest vals hlook hmem
    simp only [includeEntryCount, hlook]
    rw [hmem]
    simp

/-- C3, witness: the scan equations at the concrete matrix `mAB`. -/
theorem countNewCombinationsFromInclude_scan_witness :
    countNewCombinationsFromInclude (some mAB)
        = (mAB.Include.map (fun e =>
            includeEntryCount (extractParamMapArrVals mAB.Params) e.Params)).sum
      ∧ includeEntryCount (extractParamMapArrVals mAB.Params)
          ([⟨"A", strV "x"⟩] ++ ⟨"B", strV "b1"⟩ :: [])
          = includeEntryCount (extractParamMapArrVals mAB.Params)
              [⟨"A", strV "x"⟩]
      ∧ includeEntryCount (extractParamMapArrVals mAB.Params)
          (⟨"A", strV "x"⟩ :: [])
          = 1 + includeEntryCount (extractParamMapArrVals mAB.Params) [] :=
  ⟨countNewCombinationsFromInclude_scan.1 mAB (by decide),
   countNewCombinationsFromInclude_scan.2.1 (extractParamMapArrVals mAB.Params)
     [⟨"A", strV "x"⟩] ⟨"B", strV "b1"⟩ [] ["b1"] (by decide) (by decide),
   countNewCombinationsFromInclude_scan.2.2 (extractParamMapArrVals mAB.Params)
     ⟨"A", strV "x"⟩ [] ["a1"] (by decide) (by decide)⟩

/-- C4: `distribute` loops over the new parameter's values on the outside
and the existing combinations on the inside, so later-declared parameters
vary slower; in particular `[{OS:[linux,mac]},{VER:[1,2]}]` fans out to
exactly the four combinations in the claimed order. -/
theorem fanOut_order :
    (∀ (cs : Combinations) (param : Param),
      distribute cs param
        = (param.Value.ArrayVal.map (fun value =>
            cs.map (fun combination =>
              (sortCombination (mapWrite combination param.Name value)).2))).flatten)
    ∧ mOSVER.FanOut
        = [[⟨"OS", strV "linux"⟩, ⟨"VER", strV "1"⟩],
           [⟨"OS", strV "mac"⟩, ⟨"VER", strV "1"⟩],
           [⟨"OS", strV "linux"⟩, ⟨"VER", strV "2"⟩],
           [⟨"OS", strV "mac"⟩, ⟨"VER", strV "2"⟩]] :=
  ⟨distribute_eq_flatten, by decide⟩

/-- C5: the bound check errs exactly when the count exceeds the maximum,
the error carries the computed count and the range `[0, max]`; the 4×5
matrix with max 10 produces the OutOfBounds error citing 20 and `[0,10]`,
and with max at least 20 no error. -/
theorem validateCombinationsCount_spec (mp : Option Matrix) (maxCount : Nat) :
    (validateCombinationsCount mp maxCount = none
      ↔ CountCombinations mp ≤ maxCount)
    ∧ (∀ e : FieldError, validateCombinationsCount mp maxCount = some e →
        e.value = CountCombinations mp ∧ e.lower = 0 ∧ e.upper = maxCount
          ∧ e.path = "matrix" ∧ maxCount < CountCombinations mp)
    ∧ validateCombinationsCount (some m45) 10
        = some { value := 20, lower := 0, upper := 10, path := "matrix" }
    ∧ (∀ mx : Nat, 20 ≤ mx → validateCombinationsCount (some m45) mx = none)
    := by
  refine ⟨?_, ?_, by decide, ?_⟩
  · unfold validateCombinationsCount
    by_cases h : maxCount < CountCombinations mp
    · simp only [if_pos h]
      constructor
      · intro hc
        exact absurd hc (by simp)
      · intro hc
        omega
    · simp only [if_neg h]
      constructor
      · intro _
        omega
      · intro _
        trivial
  · intro e he
    unfold validateCombinationsCount at he
    by_cases h : maxCount < CountCombinations mp
    · rw [if_pos h] at he
      cases he
      exact ⟨rfl, rfl, rfl, rfl, h⟩
    · rw [if_neg h] at he
      exact absurd he (by simp)
  · intro mx hmx
    have h20 : CountCombinations (some m45) = 20 := by decide
    unfold validateCombinationsCount
    rw [h20, if_neg (by omega)]

/-- C5, witness: the error value is the computed count at the 4×5 matrix,
and max 30 yields no error. -/
theorem validateCombinationsCount_spec_witness :
    ({ value := 20, lower := 0, upper := 10, path := "matrix" }
        : FieldError).value = CountCombinations (some m45)
      ∧ validateCombinationsCount (some m45) 30 = none :=
  ⟨((validateCombinationsCount_spec (some m45) 10).2.1
      { value := 20, lower := 0, upper := 10, path := "matrix" }
      (by decide)).1,
   (validateCombinationsCount_spec (some m45) 10).2.2.2 30 (by decide)⟩

/-- C6: with empty (or nil) `Params` and non-empty Include,
`CountCombinations` is the length of the Include list; in particular the
matrix with nil Params and the single entry `{extra:{OS:windows}}` counts 1. -/
theorem countCombinations_include_only :
    (∀ m : Matrix, m.Params = [] → m.Include ≠ [] →
      CountCombinations (some m) = m.Include.length)
    ∧ CountCombinations (some mIncOnly) = 1 := by
  constructor
  · intro m hp hi
    rcases m with ⟨ps, inc⟩
    simp only at hp hi
    subst hp
    cases inc with
    | nil => exact absurd rfl hi
    | cons e es =>
      simp [CountCombinations, countGeneratedCombinationsFromParams,
        countNewCombinationsFromInclude, HasParams, HasInclude]
  · decide

/-- C6, witness: the general equation applied at the concrete matrix. -/
theorem countCombinations_include_only_witness :
    CountCombinations (some mIncOnly) = mIncOnly.Include.length :=
  countCombinations_include_only.1 mIncOnly rfl (by decide)

/-- C7: every parameter list produced by `FanOut` is ordered by `≤` on the
parameter names (lexicographic), and the sorted key order of a combination
is independent of insertion order (it only depends on the entries). -/
theorem fanOut_params_sorted :
    (∀ m : Matrix, ∀ ps ∈ m.FanOut,
      ps.Pairwise (fun a b => a.Name ≤ b.Name))
    ∧ (∀ c c' : Combination, c.Perm c' →
        (sortCombination c).1 = (sortCombination c').1) := by
  constructor
  · intro m ps hps
    unfold Matrix.FanOut toParams at hps
    obtain ⟨combination, _, rfl⟩ := List.mem_map.mp hps
    rw [List.pairwise_map]
    exact sortCombination_order_sorted combination
  · intro c c' h
    exact sortCombination_order_perm h

/-- C7, witness: the first OS/VER combination is name-sorted, and the two
insertion orders of one combination sort to the same key order. -/
theorem fanOut_params_sorted_witness :
    List.Pairwise (fun a b : Param => a.Name ≤ b.Name)
        [⟨"OS", strV "linux"⟩, ⟨"VER", strV "1"⟩]
      ∧ (sortCombination [("VER", "1"), ("OS", "linux")]).1
          = (sortCombination [("OS", "linux"), ("VER", "1")]).1 :=
  ⟨fanOut_params_sorted.1 mOSVER [⟨"OS", strV "linux"⟩, ⟨"VER", strV "1"⟩]
      (by decide),
   fanOut_params_sorted.2 [("VER", "1"), ("OS", "linux")]
      [("OS", "linux"), ("VER", "1")]
      (List.Perm.swap ("OS", "linux") ("VER", "1") [])⟩

/-- C8: `FanOut` of empty (or nil) `Params` is the empty sequence, and
`FanOut` never consults `Include`: matrices equal in `Params` fan out
identically whatever their Include lists. -/
theorem fanOut_empty_params_ignores_include :
    (∀ inc : IncludeParamsList,
      Matrix.FanOut { Params := [], Include := inc } = [])
    ∧ (∀ (ps : List Param) (inc₁ inc₂ : IncludeParamsList),
        Matrix.FanOut { Params := ps, Include := inc₁ }
          = Matrix.FanOut { Params := ps, Include := inc₂ }) :=
  ⟨fun _ => rfl, fun _ _ _ => rfl⟩

/-- C9: an Include entry whose parameter names all avoid the matrix param
names adds nothing to `CountCombinations` (removing it leaves the count
unchanged), however many params the entry has. -/
theorem include_entry_disjoint_contributes_zero (ps : List Param)
    (entry : IncludeParams) (pre post : List IncludeParams)
    (hps : ps ≠ [])
    (hdisj : ∀ p ∈ entry.Params, p.Name ∉ ps.map Param.Name) :
    CountCombinations (some { Params := ps, Include := pre ++ entry :: post })
      = CountCombinations (some { Params := ps, Include := pre ++ post }) := by
  have hzero : includeEntryCount (extractParamMapArrVals ps) entry.Params = 0 :=
    includeEntryCount_eq_zero _ entry.Params
      (fun p hp => lookupArrVals_extract_none ps p.Name (hdisj p hp))
  have hcg :
      countGeneratedCombinationsFromParams
          (some { Params := ps, Include := pre ++ entry :: post })
        = countGeneratedCombinationsFromParams
            (some { Params := ps, Include := pre ++ post }) := rfl
  rw [CountCombinations, CountCombinations, hcg,
    countInclude_eq_sum ps (pre ++ entry :: post) hps,
    countInclude_eq_sum ps (pre ++ post) hps]
  simp [hzero]

/-- C9, witness: an Include entry over the unknown name `C` leaves the count
of a one-param matrix unchanged. -/
theorem include_entry_disjoint_contributes_zero_witness :
    CountCombinations (some { Params := [⟨"A", arrV ["a1"]⟩]
                              , Include := [⟨"x", [⟨"C", strV "z"⟩]⟩] })
      = CountCombinations (some { Params := [⟨"A", arrV ["a1"]⟩]
                                  , Include := [] }) :=
  include_entry_disjoint_contributes_zero [⟨"A", arrV ["a1"]⟩]
    ⟨"x", [⟨"C", strV "z"⟩]⟩ [] [] (by decide) (by decide)

/-- C10: on a nil `*Matrix` receiver, `HasParams` and `HasInclude` are
false and `CountCombinations` is well-defined and returns 0. -/
theorem countCombinations_nil :
    CountCombinations none = 0
      ∧ HasParams none = false ∧ HasInclude none = false :=
  ⟨rfl, rfl, rfl⟩

end PipelineV1
